import Mathlib

/-!
Verification of the header-statistics core of enwikt-dump-rs
(src/header_stats.rs): the header count table, the recursive markup-tree
walker `process_nodes`, the key extraction in `process_header`, and the
page-selection pipeline in `HeaderStats::parse`.

Strings are modelled as lists of characters (`Str`); machine integers as
`Nat` with explicit wrap-around where the source can overflow; fallible
steps (the source's panics) as `Option` / `Except`.
-/

set_option autoImplicit false

namespace HeaderStatsModel

/-- Model of a Rust string: its list of characters. -/
abbrev Str := List Char

/-- The predicate passed to `trim_matches` in `process_header`:
`|c: char| c == ' ' || c == '\t'`. -/
def isSpaceTab (c : Char) : Bool := c == ' ' || c == '\t'

/-- Rust `str::trim_matches` specialised to the space/tab predicate: strip
matching characters from both ends of the string. -/
def trimSpaceTab (s : Str) : Str :=
  ((s.dropWhile isSpaceTab).reverse.dropWhile isSpaceTab).reverse

/-- Rust `str::trim_end_matches` with pattern `"."` as used on warning
messages in `HeaderStats::parse`: strip all trailing dot characters. -/
def trimEndDots (s : Str) : Str :=
  (s.reverse.dropWhile (fun c => c == '.')).reverse

/-- Constant `MAX_HEADER_LEVEL` of the source. -/
def MAX_HEADER_LEVEL : Nat := 6

/-- Constant `MIN_HEADER_LEVEL` of the source. -/
def MIN_HEADER_LEVEL : Nat := 2

/-- Constant `HEADER_LEVEL_ARRAY_SIZE = MAX_HEADER_LEVEL - MIN_HEADER_LEVEL + 1`. -/
def HEADER_LEVEL_ARRAY_SIZE : Nat := MAX_HEADER_LEVEL - MIN_HEADER_LEVEL + 1

/-- Modulus of Rust `usize` arithmetic (64-bit target). -/
def USIZE_MOD : Nat := 2 ^ 64

/-- The array index `index as usize - MIN_HEADER_LEVEL` computed by the
`Index`/`IndexMut` impls for `HeaderCounts`, with Rust wrapping subtraction
on `usize` (for `level < 2` the subtraction wraps around to a huge value). -/
def levelIndex (level : Nat) : Nat :=
  (level + (USIZE_MOD - MIN_HEADER_LEVEL)) % USIZE_MOD

/-- The `HeaderCounts` record: the `[usize; HEADER_LEVEL_ARRAY_SIZE]` array,
one slot per heading level in `[MIN_HEADER_LEVEL, MAX_HEADER_LEVEL]`. -/
abbrev HeaderCounts := List Nat

/-- Constructor `HeaderCounts::new()`: the zero-initialized array. -/
def HeaderCounts.new : HeaderCounts := List.replicate HEADER_LEVEL_ARRAY_SIZE 0

/-- The `IndexMut` access combined with `+= 1` as performed by
`process_header` (`*&mut value[level] += 1`): increment the slot at
`levelIndex level`; `none` models the out-of-bounds access (a wrapped
subtraction for `level < MIN_HEADER_LEVEL`, or an index past the array for
`level > MAX_HEADER_LEVEL`), which panics in the source. -/
def HeaderCounts.incrAt (c : HeaderCounts) (level : Nat) : Option HeaderCounts :=
  match c.get? (levelIndex level) with
  | some v => some (c.set (levelIndex level) (v + 1))
  | none => none

/-- The `header_counts: HashMap<String, HeaderCounts>` map, modelled as an
association list with the first occurrence of a key authoritative (the
claims never depend on the map's unspecified iteration order). -/
abbrev Table := List (Str × HeaderCounts)

/-- HashMap lookup on the association-list model. -/
def lookupCounts : Table → Str → Option HeaderCounts
  | [], _ => none
  | (k2, c) :: rest, k => if k2 = k then some c else lookupCounts rest k

/-- The update `self.header_counts.entry(key).or_insert_with(HeaderCounts::new)`
followed by the increment at `level`: create a zero record when the key is
absent, then bump the level slot (propagating the indexing panic as `none`). -/
def entryIncr : Table → Str → Nat → Option Table
  | [], k, level => (HeaderCounts.new.incrAt level).map (fun c => [(k, c)])
  | (k2, c) :: rest, k, level =>
    if k2 = k then
      (c.incrAt level).map (fun c2 => (k2, c2) :: rest)
    else
      (entryIncr rest k level).map (fun r => (k2, c) :: r)

/-- The count stored in the table at key `k` and heading level `L`
(0 when the key is absent); meaningful for `L` in `[2, 6]`. -/
def tableCount (t : Table) (k : Str) (L : Nat) : Nat :=
  match lookupCounts t k with
  | some c => (c.get? (L - MIN_HEADER_LEVEL)).getD 0
  | none => 0

/-- The total of all counts in all slots of all entries of the table. -/
def tableTotal (t : Table) : Nat :=
  (t.map (fun e => e.2.sum)).sum

/-- Well-formedness of the table: every record is a full
`HEADER_LEVEL_ARRAY_SIZE`-slot array (true of every record the program ever
creates, since `HeaderCounts::new` builds one and increments keep length). -/
def TableWF (t : Table) : Prop :=
  ∀ e ∈ t, e.2.length = HEADER_LEVEL_ARRAY_SIZE

/-- Model of `parse_wiki_text::Node`, restricted to the fields this program
reads: every variant carries its source byte range (fields `start` and
`stop`, the latter named `end` in the source), and the structured variants
carry the child sequences `process_nodes` recurses into. A `ListItem` is
represented by its `nodes` field; a `TableCaption`, `TableCell` and template
`Parameter` by the pair of their optional first node sequence (attributes /
parameter name) and mandatory second one (content / parameter value); a
`TableRow` by its attributes paired with its cells. -/
inductive Node where
  | DefinitionList (start stop : Nat) (items : List (List Node))
  | Heading (start stop : Nat) (nodes : List Node) (level : Nat)
  | Preformatted (start stop : Nat) (nodes : List Node)
  | Tag (start stop : Nat) (nodes : List Node)
  | Image (start stop : Nat) (text : List Node)
  | Link (start stop : Nat) (text : List Node)
  | OrderedList (start stop : Nat) (items : List (List Node))
  | UnorderedList (start stop : Nat) (items : List (List Node))
  | Parameter (start stop : Nat) (name : List Node) (default : Option (List Node))
  | Table (start stop : Nat) (attributes : List Node)
      (captions : List (Option (List Node) × List Node))
      (rows : List (List Node × List (Option (List Node) × List Node)))
  | Template (start stop : Nat) (name : List Node)
      (parameters : List (Option (List Node) × List Node))
  | Bold (start stop : Nat)
  | BoldItalic (start stop : Nat)
  | Category (start stop : Nat)
  | CharacterEntity (start stop : Nat)
  | Comment (start stop : Nat)
  | EndTag (start stop : Nat)
  | ExternalLink (start stop : Nat)
  | HorizontalDivider (start stop : Nat)
  | Italic (start stop : Nat)
  | MagicWord (start stop : Nat)
  | ParagraphBreak (start stop : Nat)
  | Redirect (start stop : Nat)
  | StartTag (start stop : Nat)
  | Text (start stop : Nat)

/-- Start byte offset of a node (the `start` field every source variant has). -/
def Node.start : Node → Nat
  | .DefinitionList s _ _ => s
  | .Heading s _ _ _ => s
  | .Preformatted s _ _ => s
  | .Tag s _ _ => s
  | .Image s _ _ => s
  | .Link s _ _ => s
  | .OrderedList s _ _ => s
  | .UnorderedList s _ _ => s
  | .Parameter s _ _ _ => s
  | .Table s _ _ _ _ => s
  | .Template s _ _ _ => s
  | .Bold s _ => s
  | .BoldItalic s _ => s
  | .Category s _ => s
  | .CharacterEntity s _ => s
  | .Comment s _ => s
  | .EndTag s _ => s
  | .ExternalLink s _ => s
  | .HorizontalDivider s _ => s
  | .Italic s _ => s
  | .MagicWord s _ => s
  | .ParagraphBreak s _ => s
  | .Redirect s _ => s
  | .StartTag s _ => s
  | .Text s _ => s

/-- End byte offset of a node (the `end` field every source variant has). -/
def Node.stop : Node → Nat
  | .DefinitionList _ e _ => e
  | .Heading _ e _ _ => e
  | .Preformatted _ e _ => e
  | .Tag _ e _ => e
  | .Image _ e _ => e
  | .Link _ e _ => e
  | .OrderedList _ e _ => e
  | .UnorderedList _ e _ => e
  | .Parameter _ e _ _ => e
  | .Table _ e _ _ _ => e
  | .Template _ e _ _ => e
  | .Bold _ e => e
  | .BoldItalic _ e => e
  | .Category _ e => e
  | .CharacterEntity _ e => e
  | .Comment _ e => e
  | .EndTag _ e => e
  | .ExternalLink _ e => e
  | .HorizontalDivider _ e => e
  | .Italic _ e => e
  | .MagicWord _ e => e
  | .ParagraphBreak _ e => e
  | .Redirect _ e => e
  | .StartTag _ e => e
  | .Text _ e => e

/-- Modelled from the spec: `nodes_ext::get_nodes_text` (file
`src/nodes_ext.rs` is not among the sources here). Per spec section 4.3 it
renders the plain text spanned by a node sequence by flattening the nodes'
source byte ranges against the raw page text: the exact substring of the
original markup occupied by the sequence, i.e. from the first node's start
offset to the last node's end offset; empty for an empty sequence. -/
def get_nodes_text (text : Str) (nodes : List Node) : Str :=
  match nodes.head?, nodes.getLast? with
  | some first, some last => (text.take last.stop).drop first.start
  | _, _ => []

/-- The lookup key computed in `process_header`:
`get_nodes_text(&page.text, nodes).trim_matches(|c| c == ' ' || c == '\t')`. -/
def headerKey (text : Str) (nodes : List Node) : Str :=
  trimSpaceTab (get_nodes_text text nodes)

/-- Model of `parse_mediawiki_dump::Page`, restricted to the fields this
program reads: the title, the raw namespace code (field `namespace` in the
source) and the raw markup text. -/
structure Page where
  title : Str
  nsCode : Int
  text : Str

/-- Function `HeaderStats::process_header`: compute the trimmed key and
increment the level slot of its entry, creating a zero entry when the key is
absent; `none` models the panic of the unchecked `level - MIN_HEADER_LEVEL`
array index. -/
def process_header (page : Page) (t : Table) (nodes : List Node) (level : Nat) :
    Option Table :=
  entryIncr t (headerKey page.text nodes) level

mutual

/-- Function `HeaderStats::process_nodes`: the for-loop over `nodes`,
dispatching on the node kind exactly as the `match` in the source. The inner
for-loops of the list, table and template arms are the mutual helpers below. -/
def process_nodes (page : Page) : Table → List Node → Option Table
  | t, [] => some t
  | t, node :: rest =>
    (match node with
     | .DefinitionList _ _ items => process_items page t items
     | .Heading _ _ nodes level => process_header page t nodes level
     | .Preformatted _ _ nodes => process_nodes page t nodes
     | .Tag _ _ nodes => process_nodes page t nodes
     | .Image _ _ text => process_nodes page t text
     | .Link _ _ text => process_nodes page t text
     | .OrderedList _ _ items => process_items page t items
     | .UnorderedList _ _ items => process_items page t items
     | .Parameter _ _ name default =>
       (match default with
        | some nodes => process_nodes page t nodes
        | none => some t).bind (fun t2 => process_nodes page t2 name)
     | .Table _ _ attributes captions rows =>
       (process_nodes page t attributes).bind (fun t2 =>
         (process_opt_pairs page t2 captions).bind (fun t3 =>
           process_rows page t3 rows))
     | .Template _ _ name parameters =>
       (process_nodes page t name).bind (fun t2 =>
         process_opt_pairs page t2 parameters)
     | .Bold _ _ | .BoldItalic _ _ | .Category _ _ | .CharacterEntity _ _
     | .Comment _ _ | .EndTag _ _ | .ExternalLink _ _
     | .HorizontalDivider _ _ | .Italic _ _ | .MagicWord _ _
     | .ParagraphBreak _ _ | .Redirect _ _ | .StartTag _ _ | .Text _ _ =>
       some t
    ).bind (fun t2 => process_nodes page t2 rest)
  termination_by _ ns => sizeOf ns

/-- The `for item in items { self.process_nodes(&page, &item.nodes) }` loops
of the `DefinitionList`, `OrderedList` and `UnorderedList` arms. -/
def process_items (page : Page) : Table → List (List Node) → Option Table
  | t, [] => some t
  | t, item :: rest =>
    (process_nodes page t item).bind (fun t2 => process_items page t2 rest)
  termination_by _ items => sizeOf items

/-- The caption, cell and template-parameter loops: an optional first node
sequence (caption/cell attributes, or a parameter name) processed when
present, then the mandatory second sequence (content, or a parameter value). -/
def process_opt_pairs (page : Page) :
    Table → List (Option (List Node) × List Node) → Option Table
  | t, [] => some t
  | t, (opt, nodes) :: rest =>
    ((match opt with
      | some att => process_nodes page t att
      | none => some t).bind (fun t2 => process_nodes page t2 nodes)).bind
      (fun t3 => process_opt_pairs page t3 rest)
  termination_by _ ps => sizeOf ps

/-- The `for row in rows` loop of the `Table` arm: the row's attribute nodes,
then the row's cells. -/
def process_rows (page : Page) :
    Table → List (List Node × List (Option (List Node) × List Node)) → Option Table
  | t, [] => some t
  | t, (attributes, cells) :: rest =>
    ((process_nodes page t attributes).bind (fun t2 =>
      process_opt_pairs page t2 cells)).bind (fun t3 => process_rows page t3 rest)
  termination_by _ rows => sizeOf rows

end

/-- Model of `parse_wiki_text::Warning`: a byte range (`start`, `end`) into
the page text and a message. -/
structure Warning where
  start : Nat
  stop : Nat
  message : Str

/-- Output of the external markup parser (`configuration.parse(&page.text)`):
the node forest and the warnings. -/
structure ParserOutput where
  nodes : List Node
  warnings : List Warning

/-- One stderr line of the verbose warning loop in `HeaderStats::parse`:
either the out-of-range diagnostic (carrying the positions, the trimmed
message, the text length and the page title) or the warning message together
with the sliced substring. -/
inductive Diagnostic where
  | outOfRange (start stop : Nat) (message : Str) (size : Nat) (title : Str)
  | warningAt (message : Str) (start stop : Nat) (snippet : Str) (title : Str)
  deriving DecidableEq

/-- The body of the verbose warning loop in `HeaderStats::parse`: trim
trailing dots from the message, test the warning's positions against the
half-open range `0..page.text.len()` (Rust `Range::contains` is strict at the
upper end for both positions), and emit the out-of-range diagnostic or the
message with the slice `page.text[start..end]`. -/
def reportWarning (page : Page) (w : Warning) : Diagnostic :=
  let message := trimEndDots w.message
  if ¬(w.start < page.text.length ∧ w.stop < page.text.length) then
    .outOfRange w.start w.stop message page.text.length page.title
  else
    .warningAt message w.start w.stop ((page.text.take w.stop).drop w.start) page.title

/-- The fatal conditions of a run: a dump-parse error surfaced by the
`map(unwrap_or_else(panic))` step, an unresolvable raw namespace code
(`page.namespace.try_into().unwrap()`), or the unchecked `HeaderCounts`
index in `process_header`. Each aborts the whole run. -/
inductive RunError where
  | dumpError (e : Str)
  | namespaceUnresolved
  | headerIndexOob
  deriving DecidableEq

/-- Modelled from the spec: the namespace resolution of `crate::namespace`
(file `src/namespace.rs` is not among the sources here). Per spec section
4.1 a raw namespace code either resolves to a known namespace or the run
aborts, so resolution is a partial map from raw codes to namespaces, passed
to the pipeline as a parameter. Namespaces themselves are opaque
identifiers, modelled as integers. -/
abbrev NsResolver := Int → Option Int

/-- Function `HeaderStats::parse`: the iterator chain
`map(unwrap-or-panic) → filter(namespace ∈ set) → take(page_limit)` fused
with the per-page loop body (markup parse and `process_nodes`), written as
one recursion so that the lazy `take` semantics of the source are explicit:
the remaining page budget is checked before the next stream element is
pulled, so elements past the limit are never reached. `Except.error` models
the panics. The external dump parser is modelled as the list of its page
results, the external markup parser as the function `pm`. The verbose
warning loop only writes diagnostics to stderr (see `reportWarning`) and
never changes the table, so it does not appear in the state. -/
def parseRun (resolve : NsResolver) (namespaces : List Int)
    (pm : Str → ParserOutput) :
    List (Except Str Page) → Nat → Table → Except RunError Table
  | _, 0, t => .ok t
  | [], _ + 1, t => .ok t
  | .error e :: _, _ + 1, _ => .error (.dumpError e)
  | .ok page :: rest, n + 1, t =>
    match resolve page.nsCode with
    | none => .error .namespaceUnresolved
    | some ns =>
      if ns ∈ namespaces then
        match process_nodes page t (pm page.text).nodes with
        | none => .error .headerIndexOob
        | some t2 => parseRun resolve namespaces pm rest n t2
      else
        parseRun resolve namespaces pm rest (n + 1) t

/-- Run `parseRun` on a stream prefix, also returning the page budget left
over when the prefix is exhausted (0 when the budget ran out first). Used to
state what a run does after consuming a prefix of its stream. -/
def parseRunAux (resolve : NsResolver) (namespaces : List Int)
    (pm : Str → ParserOutput) :
    List (Except Str Page) → Nat → Table → Except RunError (Nat × Table)
  | _, 0, t => .ok (0, t)
  | [], n + 1, t => .ok (n + 1, t)
  | .error e :: _, _ + 1, _ => .error (.dumpError e)
  | .ok page :: rest, n + 1, t =>
    match resolve page.nsCode with
    | none => .error .namespaceUnresolved
    | some ns =>
      if ns ∈ namespaces then
        match process_nodes page t (pm page.text).nodes with
        | none => .error .headerIndexOob
        | some t2 => parseRunAux resolve namespaces pm rest n t2
      else
        parseRunAux resolve namespaces pm rest (n + 1) t

/-- Specification-side: the pages the pipeline selects — the first `n` pages
of the stream, in stream order, whose namespace resolves into the include
set; cut short by the stream end (and at a dump error or an unresolvable
namespace, where the run aborts). -/
def selectedPages (resolve : NsResolver) (namespaces : List Int) :
    List (Except Str Page) → Nat → List Page
  | _, 0 => []
  | [], _ + 1 => []
  | .error _ :: _, _ + 1 => []
  | .ok page :: rest, n + 1 =>
    match resolve page.nsCode with
    | none => []
    | some ns =>
      if ns ∈ namespaces then page :: selectedPages resolve namespaces rest n
      else selectedPages resolve namespaces rest (n + 1)

/-- Specification-side: how many pages of a stream pass the namespace filter
(elements that would abort the run are not counted; they abort identically
with or without a suffix, so the count is only used as a lower bound). -/
def selectedCount (resolve : NsResolver) (namespaces : List Int) :
    List (Except Str Page) → Nat
  | [] => 0
  | .error _ :: rest => selectedCount resolve namespaces rest
  | .ok page :: rest =>
    (match resolve page.nsCode with
     | some ns => if ns ∈ namespaces then 1 else 0
     | none => 0) + selectedCount resolve namespaces rest

mutual

/-- Specification-side: all `(children, level)` pairs of `Heading` nodes
anywhere in a node forest, in document order, descending into every child
sequence — including the children of headings themselves. -/
def headingsIn : List Node → List (List Node × Nat)
  | [] => []
  | node :: rest =>
    (match node with
     | .DefinitionList _ _ items => headingsInItems items
     | .Heading _ _ nodes level => (nodes, level) :: headingsIn nodes
     | .Preformatted _ _ nodes => headingsIn nodes
     | .Tag _ _ nodes => headingsIn nodes
     | .Image _ _ text => headingsIn text
     | .Link _ _ text => headingsIn text
     | .OrderedList _ _ items => headingsInItems items
     | .UnorderedList _ _ items => headingsInItems items
     | .Parameter _ _ name default =>
       (match default with
        | some nodes => headingsIn nodes
        | none => []) ++ headingsIn name
     | .Table _ _ attributes captions rows =>
       headingsIn attributes ++ headingsInOptPairs captions ++ headingsInRows rows
     | .Template _ _ name parameters =>
       headingsIn name ++ headingsInOptPairs parameters
     | _ => []) ++ headingsIn rest
  termination_by ns => sizeOf ns

/-- Headings in a sequence of list items. -/
def headingsInItems : List (List Node) → List (List Node × Nat)
  | [] => []
  | item :: rest => headingsIn item ++ headingsInItems rest
  termination_by items => sizeOf items

/-- Headings in a sequence of caption/cell/parameter pairs. -/
def headingsInOptPairs : List (Option (List Node) × List Node) → List (List Node × Nat)
  | [] => []
  | (opt, nodes) :: rest =>
    (match opt with
     | some att => headingsIn att
     | none => []) ++ headingsIn nodes ++ headingsInOptPairs rest
  termination_by ps => sizeOf ps

/-- Headings in a sequence of table rows. -/
def headingsInRows : List (List Node × List (Option (List Node) × List Node)) → List (List Node × Nat)
  | [] => []
  | (attributes, cells) :: rest =>
    headingsIn attributes ++ headingsInOptPairs cells ++ headingsInRows rest
  termination_by rows => sizeOf rows

end

/-- Specification-side: among a list of `(children, level)` heading
descriptors, the number whose trimmed plain text is `k` and whose level is
`L`. -/
def countIn (text : Str) (k : Str) (L : Nat) (prs : List (List Node × Nat)) : Nat :=
  prs.countP (fun pr => decide (headerKey text pr.1 = k) && decide (pr.2 = L))

/-- Specification-side count for count conservation: the number of `Heading`
nodes anywhere in the forest whose trimmed plain text is `k` and whose level
is `L`. -/
def countHeadings (text : Str) (k : Str) (L : Nat) (nodes : List Node) : Nat :=
  countIn text k L (headingsIn nodes)

/-- Specification-side: the total number of headings a whole selected corpus
contains with key `k` at level `L`. -/
def corpusCount (pm : Str → ParserOutput) (k : Str) (L : Nat)
    (pages : List Page) : Nat :=
  (pages.map (fun p => countHeadings p.text k L (pm p.text).nodes)).sum

/-- Hypotheses on the heading descriptors of a forest under which the walker
is exhaustive: every heading's own children contain no further heading (the
external parser's guarantee — markup headings cannot nest headings, spec
section 4.2) and every heading level fits in a byte (`level` is a `u8` in
`parse_wiki_text`). -/
def HeadsOKP (prs : List (List Node × Nat)) : Prop :=
  ∀ pr ∈ prs, (headingsIn pr.1).isEmpty = true ∧ pr.2 < 256

/-- The `HeadsOKP` condition for a whole forest. -/
def HeadsOK (nodes : List Node) : Prop := HeadsOKP (headingsIn nodes)

/-- Specification-side: a processing step from table `t` to table `t2` is
well-formed and adds, at every key `k` and level `L` of interest, exactly
the number of heading descriptors in `prs` matching `(k, L)`. -/
def Adds (t t2 : Table) (text : Str) (prs : List (List Node × Nat)) : Prop :=
  TableWF t2 ∧ ∀ k L, MIN_HEADER_LEVEL ≤ L → L ≤ MAX_HEADER_LEVEL →
    tableCount t2 k L = tableCount t k L + countIn text k L prs

/-! ## Lemmas about trimming -/

theorem dropWhile_dropWhile_self (p : Char → Bool) (l : List Char) :
    (l.dropWhile p).dropWhile p = l.dropWhile p := by
  induction l with
  | nil => simp
  | cons x xs ih => cases h : p x <;> simp [List.dropWhile_cons, h, ih]

theorem head?_dropWhile_false (p : Char → Bool) :
    ∀ (l : List Char) (x : Char), (l.dropWhile p).head? = some x → p x = false
  | [], x => by simp
  | y :: ys, x => by
    cases h : p y with
    | true => simpa [List.dropWhile_cons, h] using head?_dropWhile_false p ys x
    | false =>
      intro hx
      simp [List.dropWhile_cons, h] at hx
      rw [← hx]
      exact h

theorem getLast?_dropWhile (p : Char → Bool) :
    ∀ l : List Char, l.dropWhile p ≠ [] → (l.dropWhile p).getLast? = l.getLast?
  | [], h => by simp at h
  | y :: ys, h => by
    cases hy : p y with
    | false => simp [List.dropWhile_cons, hy]
    | true =>
      have hne : ys.dropWhile p ≠ [] := by
        simpa [List.dropWhile_cons, hy] using h
      have ihe := getLast?_dropWhile p ys hne
      have hys : ys ≠ [] := by
        intro hemp
        rw [hemp] at hne
        simp at hne
      cases ys with
      | nil => exact absurd rfl hys
      | cons z zs =>
        rw [List.getLast?_cons_cons]
        simpa [List.dropWhile_cons, hy] using ihe

theorem dropWhile_eq_self_of_head (p : Char → Bool) (l : List Char)
    (h : ∀ x, l.head? = some x → p x = false) : l.dropWhile p = l := by
  cases l with
  | nil => simp
  | cons y ys => simp [List.dropWhile_cons, h y rfl]

theorem trimSpaceTab_head (s : Str) (x : Char)
    (hx : (trimSpaceTab s).head? = some x) : isSpaceTab x = false := by
  unfold trimSpaceTab at hx
  rw [List.head?_reverse] at hx
  by_cases hb : (s.dropWhile isSpaceTab).reverse.dropWhile isSpaceTab = []
  · rw [hb] at hx
    simp at hx
  · rw [getLast?_dropWhile _ _ hb, List.getLast?_reverse] at hx
    exact head?_dropWhile_false _ _ _ hx

theorem trimSpaceTab_getLast (s : Str) (x : Char)
    (hx : (trimSpaceTab s).getLast? = some x) : isSpaceTab x = false := by
  unfold trimSpaceTab at hx
  rw [List.getLast?_reverse] at hx
  exact head?_dropWhile_false _ _ _ hx

theorem trimSpaceTab_eq_self (l : Str)
    (hh : ∀ x, l.head? = some x → isSpaceTab x = false)
    (hl : ∀ x, l.getLast? = some x → isSpaceTab x = false) :
    trimSpaceTab l = l := by
  have h2 : l.reverse.dropWhile isSpaceTab = l.reverse :=
    dropWhile_eq_self_of_head _ _
      (fun x hx => hl x (by rwa [List.head?_reverse] at hx))
  unfold trimSpaceTab
  rw [dropWhile_eq_self_of_head _ _ hh, h2, List.reverse_reverse]

theorem trimSpaceTab_idem (s : Str) :
    trimSpaceTab (trimSpaceTab s) = trimSpaceTab s :=
  trimSpaceTab_eq_self _ (trimSpaceTab_head s) (trimSpaceTab_getLast s)

theorem trimSpaceTab_decomp (s : Str) :
    ∃ pre suf, s = pre ++ trimSpaceTab s ++ suf ∧
      (∀ c ∈ pre, isSpaceTab c = true) ∧ (∀ c ∈ suf, isSpaceTab c = true) := by
  refine ⟨s.takeWhile isSpaceTab,
    ((s.dropWhile isSpaceTab).reverse.takeWhile isSpaceTab).reverse, ?_, ?_, ?_⟩
  · have hdrop : s.dropWhile isSpaceTab =
        trimSpaceTab s ++ ((s.dropWhile isSpaceTab).reverse.takeWhile isSpaceTab).reverse := by
      have hs := congrArg List.reverse
        (List.takeWhile_append_dropWhile isSpaceTab (s.dropWhile isSpaceTab).reverse)
      rw [List.reverse_append, List.reverse_reverse] at hs
      exact hs.symm
    conv_lhs => rw [← List.takeWhile_append_dropWhile isSpaceTab s, hdrop]
    rw [List.append_assoc]
  · intro c hc
    exact List.mem_takeWhile_imp hc
  · intro c hc
    rw [List.mem_reverse] at hc
    exact List.mem_takeWhile_imp hc

/-! ## Lemmas about the counter array and the table -/

theorem levelIndex_of_range (l : Nat) (h2 : MIN_HEADER_LEVEL ≤ l)
    (h6 : l ≤ MAX_HEADER_LEVEL) : levelIndex l = l - MIN_HEADER_LEVEL := by
  simp only [levelIndex, USIZE_MOD, MIN_HEADER_LEVEL, MAX_HEADER_LEVEL] at *
  omega

theorem range_of_levelIndex (l : Nat) (hu8 : l < 256)
    (h : levelIndex l < HEADER_LEVEL_ARRAY_SIZE) :
    MIN_HEADER_LEVEL ≤ l ∧ l ≤ MAX_HEADER_LEVEL := by
  simp only [levelIndex, USIZE_MOD, MIN_HEADER_LEVEL, MAX_HEADER_LEVEL,
    HEADER_LEVEL_ARRAY_SIZE] at *
  omega

theorem levelIndex_big_of_lt (l : Nat) (h : l < MIN_HEADER_LEVEL) :
    HEADER_LEVEL_ARRAY_SIZE ≤ levelIndex l := by
  simp only [levelIndex, USIZE_MOD, MIN_HEADER_LEVEL, MAX_HEADER_LEVEL,
    HEADER_LEVEL_ARRAY_SIZE] at *
  omega

theorem incrAt_of_range (c : HeaderCounts) (l : Nat)
    (hlen : c.length = HEADER_LEVEL_ARRAY_SIZE)
    (h2 : MIN_HEADER_LEVEL ≤ l) (h6 : l ≤ MAX_HEADER_LEVEL) :
    ∃ v, c.get? (l - MIN_HEADER_LEVEL) = some v ∧
      c.incrAt l = some (c.set (l - MIN_HEADER_LEVEL) (v + 1)) := by
  have hidx := levelIndex_of_range l h2 h6
  have hlt : l - MIN_HEADER_LEVEL < c.length := by
    simp only [MIN_HEADER_LEVEL, MAX_HEADER_LEVEL, HEADER_LEVEL_ARRAY_SIZE] at *
    omega
  obtain ⟨v, hv⟩ : ∃ v, c.get? (l - MIN_HEADER_LEVEL) = some v := by
    cases hg : c.get? (l - MIN_HEADER_LEVEL) with
    | none =>
      rw [List.get?_eq_none] at hg
      omega
    | some v => exact ⟨v, rfl⟩
  refine ⟨v, hv, ?_⟩
  unfold HeaderCounts.incrAt
  rw [hidx, hv]

theorem incrAt_levelIndex_lt (c : HeaderCounts) (l : Nat) (c2 : HeaderCounts)
    (h : c.incrAt l = some c2) : levelIndex l < c.length := by
  unfold HeaderCounts.incrAt at h
  cases hv : c.get? (levelIndex l) with
  | none => rw [hv] at h; cases h
  | some v =>
    by_cases hlt : levelIndex l < c.length
    · exact hlt
    · rw [List.get?_eq_none.mpr (Nat.le_of_not_lt hlt)] at hv
      cases hv

theorem incrAt_eq (c : HeaderCounts) (l : Nat) (c2 : HeaderCounts)
    (h : c.incrAt l = some c2) :
    ∃ v, c.get? (levelIndex l) = some v ∧ c2 = c.set (levelIndex l) (v + 1) := by
  unfold HeaderCounts.incrAt at h
  cases hv : c.get? (levelIndex l) with
  | none => rw [hv] at h; cases h
  | some v =>
    rw [hv] at h
    exact ⟨v, rfl, (Option.some.inj h).symm⟩

theorem sum_set_succ :
    ∀ (c : List Nat) (i v : Nat), c.get? i = some v →
      (c.set i (v + 1)).sum = c.sum + 1
  | [], i, v => by simp
  | x :: xs, 0, v => by
    intro h
    have hx : x = v := by simpa using h
    subst hx
    simp [List.sum_cons]
    omega
  | x :: xs, i + 1, v => by
    intro h
    have h2 : xs.get? i = some v := by simpa using h
    have hs := sum_set_succ xs i v h2
    simp [List.sum_cons, hs]
    omega

theorem new_length : HeaderCounts.new.length = HEADER_LEVEL_ARRAY_SIZE := by
  simp [HeaderCounts.new]

theorem new_get? (i : Nat) (h : i < HEADER_LEVEL_ARRAY_SIZE) :
    HeaderCounts.new.get? i = some 0 := by
  simp [HeaderCounts.new, List.get?_eq_getElem?, h]

theorem get?_set_same (c : List Nat) (i a : Nat) (h : i < c.length) :
    (c.set i a).get? i = some a := by
  simp [List.get?_eq_getElem?, List.getElem?_set_eq_of_lt a h]

theorem get?_set_other (c : List Nat) (i j a : Nat) (hij : i ≠ j) :
    (c.set i a).get? j = c.get? j := by
  rw [List.get?_eq_getElem?, List.get?_eq_getElem?, List.getElem?_set_ne hij]

theorem lookupCounts_nil (k : Str) : lookupCounts [] k = none := rfl

theorem lookupCounts_cons (k2 : Str) (c : HeaderCounts) (rest : Table) (k : Str) :
    lookupCounts ((k2, c) :: rest) k =
      if k2 = k then some c else lookupCounts rest k := rfl

theorem entryIncr_nil (k : Str) (l : Nat) :
    entryIncr [] k l = (HeaderCounts.new.incrAt l).map (fun c => [(k, c)]) := rfl

theorem entryIncr_cons (k2 : Str) (c : HeaderCounts) (rest : Table)
    (k : Str) (l : Nat) :
    entryIncr ((k2, c) :: rest) k l =
      if k2 = k then (c.incrAt l).map (fun c2 => (k2, c2) :: rest)
      else (entryIncr rest k l).map (fun r => (k2, c) :: r) := rfl

theorem tableCount_nil (k : Str) (L : Nat) : tableCount [] k L = 0 := rfl

theorem tableCount_cons (k2 : Str) (c : HeaderCounts) (rest : Table)
    (k : Str) (L : Nat) :
    tableCount ((k2, c) :: rest) k L =
      if k2 = k then (c.get? (L - MIN_HEADER_LEVEL)).getD 0
      else tableCount rest k L := by
  unfold tableCount
  rw [lookupCounts_cons]
  by_cases h : k2 = k
  · simp [h]
  · simp [h]

theorem tableTotal_nil : tableTotal [] = 0 := rfl

theorem tableTotal_cons (k : Str) (c : HeaderCounts) (rest : Table) :
    tableTotal ((k, c) :: rest) = c.sum + tableTotal rest := by
  simp [tableTotal]

theorem tableWF_nil : TableWF [] := by
  intro e he
  cases he

theorem tableWF_cons_elim {k : Str} {c : HeaderCounts} {rest : Table}
    (h : TableWF ((k, c) :: rest)) :
    c.length = HEADER_LEVEL_ARRAY_SIZE ∧ TableWF rest :=
  ⟨h _ (List.mem_cons_self _ _), fun e he => h e (List.mem_cons_of_mem _ he)⟩

theorem tableWF_cons_intro {k : Str} {c : HeaderCounts} {rest : Table}
    (hc : c.length = HEADER_LEVEL_ARRAY_SIZE) (h : TableWF rest) :
    TableWF ((k, c) :: rest) := by
  intro e he
  rcases List.mem_cons.mp he with he | he
  · rw [he]
    exact hc
  · exact h e he

theorem entryIncr_spec (k : Str) (l : Nat) (h2 : MIN_HEADER_LEVEL ≤ l)
    (h6 : l ≤ MAX_HEADER_LEVEL) :
    ∀ t : Table, TableWF t →
      ∃ t2, entryIncr t k l = some t2 ∧ TableWF t2 ∧
        tableTotal t2 = tableTotal t + 1 ∧
        ∀ k2 L, MIN_HEADER_LEVEL ≤ L → L ≤ MAX_HEADER_LEVEL →
          tableCount t2 k2 L = tableCount t k2 L +
            (if k2 = k ∧ L = l then 1 else 0)
  | [], _ => by
    obtain ⟨v, hv, hincr⟩ := incrAt_of_range HeaderCounts.new l new_length h2 h6
    have hv0 : v = 0 := by
      have hn := new_get? (l - MIN_HEADER_LEVEL) (by
        simp only [MIN_HEADER_LEVEL, MAX_HEADER_LEVEL, HEADER_LEVEL_ARRAY_SIZE] at *
        omega)
      rw [hn] at hv
      exact (Option.some.inj hv).symm
    refine ⟨[(k, HeaderCounts.new.set (l - MIN_HEADER_LEVEL) (v + 1))], ?_, ?_, ?_, ?_⟩
    · rw [entryIncr_nil, hincr]
      rfl
    · intro e he
      rcases List.mem_cons.mp he with he | he
      · rw [he]
        simp [List.length_set, new_length]
      · cases he
    · rw [tableTotal_cons, tableTotal_nil, sum_set_succ _ _ _ hv]
      have : HeaderCounts.new.sum = 0 := by
        simp [HeaderCounts.new]
      rw [this]
    · intro k2 L hL2 hL6
      rw [tableCount_cons, tableCount_nil]
      by_cases hk : k = k2
      · subst hk
        simp only [if_pos rfl]
        by_cases hLl : L = l
        · subst hLl
          rw [get?_set_same _ _ _ (by
            rw [new_length]
            simp only [MIN_HEADER_LEVEL, MAX_HEADER_LEVEL, HEADER_LEVEL_ARRAY_SIZE] at *
            omega)]
          simp [hv0]
        · rw [get?_set_other _ _ _ _ (by
            simp only [MIN_HEADER_LEVEL, MAX_HEADER_LEVEL] at *
            omega)]
          rw [new_get? (L - MIN_HEADER_LEVEL) (by
            simp only [MIN_HEADER_LEVEL, MAX_HEADER_LEVEL, HEADER_LEVEL_ARRAY_SIZE] at *
            omega)]
          simp [hLl]
      · rw [if_neg hk]
        have hne : ¬(k2 = k ∧ L = l) := fun hco => hk hco.1.symm
        simp [hne]
  | (k2, c) :: rest, hwf => by
    obtain ⟨hc, hwfr⟩ := tableWF_cons_elim hwf
    by_cases hkk : k2 = k
    · obtain ⟨v, hv, hincr⟩ := incrAt_of_range c l hc h2 h6
      refine ⟨(k2, c.set (l - MIN_HEADER_LEVEL) (v + 1)) :: rest, ?_, ?_, ?_, ?_⟩
      · rw [entryIncr_cons, if_pos hkk, hincr]
        rfl
      · exact tableWF_cons_intro (by rw [List.length_set]; exact hc) hwfr
      · rw [tableTotal_cons, tableTotal_cons, sum_set_succ _ _ _ hv]
        omega
      · intro k3 L hL2 hL6
        rw [tableCount_cons, tableCount_cons]
        by_cases hk3 : k2 = k3
        · simp only [if_pos hk3]
          by_cases hLl : L = l
          · subst hLl
            rw [get?_set_same _ _ _ (by
              rw [hc]
              simp only [MIN_HEADER_LEVEL, MAX_HEADER_LEVEL, HEADER_LEVEL_ARRAY_SIZE] at *
              omega)]
            rw [hv]
            simp [← hk3, hkk]
          · rw [get?_set_other _ _ _ _ (by
              simp only [MIN_HEADER_LEVEL, MAX_HEADER_LEVEL] at *
              omega)]
            simp [hLl]
        · simp only [if_neg hk3]
          have : ¬(k3 = k ∧ L = l) := by
            intro hcontra
            exact hk3 (hkk.trans hcontra.1.symm)
          simp [this]
    · obtain ⟨t2, hrun, hwf2, htot, hcnt⟩ := entryIncr_spec k l h2 h6 rest hwfr
      refine ⟨(k2, c) :: t2, ?_, ?_, ?_, ?_⟩
      · rw [entryIncr_cons, if_neg hkk, hrun]
        rfl
      · exact tableWF_cons_intro hc hwf2
      · rw [tableTotal_cons, tableTotal_cons, htot]
        omega
      · intro k3 L hL2 hL6
        rw [tableCount_cons, tableCount_cons]
        by_cases hk3 : k2 = k3
        · have : ¬(k3 = k ∧ L = l) := by
            intro hcontra
            exact hkk (hk3.trans hcontra.1)
          simp [hk3, this]
        · simp only [if_neg hk3]
          exact hcnt k3 L hL2 hL6

theorem entryIncr_levelIndex_lt :
    ∀ (t : Table) (k : Str) (l : Nat) (t2 : Table), TableWF t →
      entryIncr t k l = some t2 → levelIndex l < HEADER_LEVEL_ARRAY_SIZE
  | [], k, l, t2, _, h => by
    rw [entryIncr_nil] at h
    cases hi : HeaderCounts.new.incrAt l with
    | none => rw [hi] at h; cases h
    | some c =>
      have hlt := incrAt_levelIndex_lt _ _ _ hi
      rwa [new_length] at hlt
  | (k2, c) :: rest, k, l, t2, hwf, h => by
    obtain ⟨hc, hwfr⟩ := tableWF_cons_elim hwf
    rw [entryIncr_cons] at h
    by_cases hkk : k2 = k
    · rw [if_pos hkk] at h
      cases hi : c.incrAt l with
      | none => rw [hi] at h; cases h
      | some c2 =>
        have hlt := incrAt_levelIndex_lt _ _ _ hi
        rwa [hc] at hlt
    · rw [if_neg hkk] at h
      cases hi : entryIncr rest k l with
      | none => rw [hi] at h; cases h
      | some r => exact entryIncr_levelIndex_lt rest k l r hwfr hi

/-! ## Lemmas about heading counts and the walker -/

theorem countIn_nil (text k : Str) (L : Nat) : countIn text k L [] = 0 := rfl

theorem countIn_append (text k : Str) (L : Nat)
    (a b : List (List Node × Nat)) :
    countIn text k L (a ++ b) = countIn text k L a + countIn text k L b :=
  List.countP_append _ a b

theorem countIn_single (text k : Str) (L : Nat) (ns : List Node) (lvl : Nat) :
    countIn text k L [(ns, lvl)] =
      if headerKey text ns = k ∧ lvl = L then 1 else 0 := by
  by_cases h1 : headerKey text ns = k <;> by_cases h2 : lvl = L <;>
    simp [countIn, List.countP_cons, h1, h2]

theorem headsOKP_append_elim {a b : List (List Node × Nat)}
    (h : HeadsOKP (a ++ b)) : HeadsOKP a ∧ HeadsOKP b := by
  constructor <;> intro pr hpr
  · exact h pr (List.mem_append_left _ hpr)
  · exact h pr (List.mem_append_right _ hpr)

theorem headsOKP_cons_elim {pr : List Node × Nat} {prs : List (List Node × Nat)}
    (h : HeadsOKP (pr :: prs)) :
    ((headingsIn pr.1).isEmpty = true ∧ pr.2 < 256) ∧ HeadsOKP prs :=
  ⟨h pr (List.mem_cons_self _ _), fun q hq => h q (List.mem_cons_of_mem _ hq)⟩

theorem adds_nil (t : Table) (text : Str) (hwf : TableWF t) :
    Adds t t text [] :=
  ⟨hwf, fun k L _ _ => by simp [countIn_nil]⟩

theorem adds_trans {t t1 t2 : Table} {text : Str}
    {prs1 prs2 : List (List Node × Nat)}
    (h1 : Adds t t1 text prs1) (h2 : Adds t1 t2 text prs2) :
    Adds t t2 text (prs1 ++ prs2) := by
  refine ⟨h2.1, fun k L hL2 hL6 => ?_⟩
  rw [countIn_append, h2.2 k L hL2 hL6, h1.2 k L hL2 hL6]
  omega

theorem process_header_spec (page : Page) (t : Table) (ns : List Node)
    (lvl : Nat) (t2 : Table) (hwf : TableWF t) (hu8 : lvl < 256)
    (h : process_header page t ns lvl = some t2) :
    Adds t t2 page.text [(ns, lvl)] ∧ tableTotal t2 = tableTotal t + 1 := by
  have hlt := entryIncr_levelIndex_lt t _ lvl t2 hwf h
  obtain ⟨hl2, hl6⟩ := range_of_levelIndex lvl hu8 hlt
  obtain ⟨t3, he, hwf3, htot, hcnt⟩ :=
    entryIncr_spec (headerKey page.text ns) lvl hl2 hl6 t hwf
  unfold process_header at h
  rw [he] at h
  obtain rfl : t3 = t2 := Option.some.inj h
  refine ⟨⟨hwf3, fun k L hL2 hL6 => ?_⟩, htot⟩
  rw [hcnt k L hL2 hL6, countIn_single]
  by_cases h1 : k = headerKey page.text ns <;> by_cases h2 : L = lvl
  · simp [h1, h2]
  · have h2b : ¬(lvl = L) := fun hx => h2 hx.symm
    simp [h1, h2, h2b]
  · have h1b : ¬(headerKey page.text ns = k) := fun hx => h1 hx.symm
    simp [h1b, h1, h2]
  · have h1b : ¬(headerKey page.text ns = k) := fun hx => h1 hx.symm
    simp [h1b, h1, h2]

set_option maxHeartbeats 2000000 in
mutual

theorem walk_nodes (page : Page) :
    ∀ (ns : List Node) (t t2 : Table), process_nodes page t ns = some t2 →
      TableWF t → HeadsOKP (headingsIn ns) → Adds t t2 page.text (headingsIn ns)
  | [], t, t2, h, hwf, _ => by
    simp [process_nodes] at h
    subst h
    simpa [headingsIn] using adds_nil t page.text hwf
  | node :: rest, t, t2, h, hwf, hok => by
    cases node with
    | DefinitionList s e items =>
      simp only [process_nodes] at h
      simp only [headingsIn] at hok ⊢
      obtain ⟨hok1, hok2⟩ := headsOKP_append_elim hok
      cases h1 : process_items page t items with
      | none => rw [h1] at h; simp at h
      | some t1 =>
        rw [h1] at h
        simp at h
        have A1 := walk_items page items t t1 h1 hwf hok1
        exact adds_trans A1 (walk_nodes page rest t1 t2 h A1.1 hok2)
    | Heading s e nodes lvl =>
      simp only [process_nodes] at h
      simp only [headingsIn] at hok ⊢
      obtain ⟨hokh, hokrest⟩ := headsOKP_append_elim hok
      obtain ⟨⟨hemp, hu8⟩, _⟩ := headsOKP_cons_elim hokh
      have heq : headingsIn nodes = [] := by simpa using hemp
      rw [heq]
      cases h1 : process_header page t nodes lvl with
      | none => rw [h1] at h; simp at h
      | some t1 =>
        rw [h1] at h
        simp at h
        obtain ⟨A1, _⟩ := process_header_spec page t nodes lvl t1 hwf hu8 h1
        exact adds_trans A1 (walk_nodes page rest t1 t2 h A1.1 hokrest)
    | Preformatted s e nodes =>
      simp only [process_nodes] at h
      simp only [headingsIn] at hok ⊢
      obtain ⟨hok1, hok2⟩ := headsOKP_append_elim hok
      cases h1 : process_nodes page t nodes with
      | none => rw [h1] at h; simp at h
      | some t1 =>
        rw [h1] at h
        simp at h
        have A1 := walk_nodes page nodes t t1 h1 hwf hok1
        exact adds_trans A1 (walk_nodes page rest t1 t2 h A1.1 hok2)
    | Tag s e nodes =>
      simp only [process_nodes] at h
      simp only [headingsIn] at hok ⊢
      obtain ⟨hok1, hok2⟩ := headsOKP_append_elim hok
      cases h1 : process_nodes page t nodes with
      | none => rw [h1] at h; simp at h
      | some t1 =>
        rw [h1] at h
        simp at h
        have A1 := walk_nodes page nodes t t1 h1 hwf hok1
        exact adds_trans A1 (walk_nodes page rest t1 t2 h A1.1 hok2)
    | Image s e text =>
      simp only [process_nodes] at h
      simp only [headingsIn] at hok ⊢
      obtain ⟨hok1, hok2⟩ := headsOKP_append_elim hok
      cases h1 : process_nodes page t text with
      | none => rw [h1] at h; simp at h
      | some t1 =>
        rw [h1] at h
        simp at h
        have A1 := walk_nodes page text t t1 h1 hwf hok1
        exact adds_trans A1 (walk_nodes page rest t1 t2 h A1.1 hok2)
    | Link s e text =>
      simp only [process_nodes] at h
      simp only [headingsIn] at hok ⊢
      obtain ⟨hok1, hok2⟩ := headsOKP_append_elim hok
      cases h1 : process_nodes page t text with
      | none => rw [h1] at h; simp at h
      | some t1 =>
        rw [h1] at h
        simp at h
        have A1 := walk_nodes page text t t1 h1 hwf hok1
        exact adds_trans A1 (walk_nodes page rest t1 t2 h A1.1 hok2)
    | OrderedList s e items =>
      simp only [process_nodes] at h
      simp only [headingsIn] at hok ⊢
      obtain ⟨hok1, hok2⟩ := headsOKP_append_elim hok
      cases h1 : process_items page t items with
      | none => rw [h1] at h; simp at h
      | some t1 =>
        rw [h1] at h
        simp at h
        have A1 := walk_items page items t t1 h1 hwf hok1
        exact adds_trans A1 (walk_nodes page rest t1 t2 h A1.1 hok2)
    | UnorderedList s e items =>
      simp only [process_nodes] at h
      simp only [headingsIn] at hok ⊢
      obtain ⟨hok1, hok2⟩ := headsOKP_append_elim hok
      cases h1 : process_items page t items with
      | none => rw [h1] at h; simp at h
      | some t1 =>
        rw [h1] at h
        simp at h
        have A1 := walk_items page items t t1 h1 hwf hok1
        exact adds_trans A1 (walk_nodes page rest t1 t2 h A1.1 hok2)
    | Parameter s e name default =>
      cases default with
      | none =>
        simp only [process_nodes] at h
        simp only [headingsIn, List.nil_append] at hok ⊢
        obtain ⟨hok1, hok2⟩ := headsOKP_append_elim hok
        simp at h
        cases h1 : process_nodes page t name with
        | none => rw [h1] at h; simp at h
        | some t1 =>
          rw [h1] at h
          simp at h
          have A1 := walk_nodes page name t t1 h1 hwf hok1
          exact adds_trans A1 (walk_nodes page rest t1 t2 h A1.1 hok2)
      | some dnodes =>
        simp only [process_nodes] at h
        simp only [headingsIn] at hok ⊢
        obtain ⟨hok12, hok3⟩ := headsOKP_append_elim hok
        obtain ⟨hok1, hok2⟩ := headsOKP_append_elim hok12
        cases h1 : process_nodes page t dnodes with
        | none => rw [h1] at h; simp at h
        | some t1 =>
          rw [h1] at h
          simp at h
          cases h2 : process_nodes page t1 name with
          | none => rw [h2] at h; simp at h
          | some tn =>
            rw [h2] at h
            simp at h
            have A1 := walk_nodes page dnodes t t1 h1 hwf hok1
            have A2 := walk_nodes page name t1 tn h2 A1.1 hok2
            exact adds_trans (adds_trans A1 A2) (walk_nodes page rest tn t2 h A2.1 hok3)
    | Table s e attributes captions rows =>
      simp only [process_nodes] at h
      simp only [headingsIn] at hok ⊢
      obtain ⟨hok123, hok4⟩ := headsOKP_append_elim hok
      obtain ⟨hok12, hok3⟩ := headsOKP_append_elim hok123
      obtain ⟨hok1, hok2⟩ := headsOKP_append_elim hok12
      cases h1 : process_nodes page t attributes with
      | none => rw [h1] at h; simp at h
      | some ta =>
        rw [h1] at h
        simp at h
        cases h2 : process_opt_pairs page ta captions with
        | none => rw [h2] at h; simp at h
        | some tb =>
          rw [h2] at h
          simp at h
          cases h3 : process_rows page tb rows with
          | none => rw [h3] at h; simp at h
          | some tc =>
            rw [h3] at h
            simp at h
            have A1 := walk_nodes page attributes t ta h1 hwf hok1
            have A2 := walk_opt_pairs page captions ta tb h2 A1.1 hok2
            have A3 := walk_rows page rows tb tc h3 A2.1 hok3
            exact adds_trans (adds_trans (adds_trans A1 A2) A3)
              (walk_nodes page rest tc t2 h A3.1 hok4)
    | Template s e name parameters =>
      simp only [process_nodes] at h
      simp only [headingsIn] at hok ⊢
      obtain ⟨hok12, hok3⟩ := headsOKP_append_elim hok
      obtain ⟨hok1, hok2⟩ := headsOKP_append_elim hok12
      cases h1 : process_nodes page t name with
      | none => rw [h1] at h; simp at h
      | some t1 =>
        rw [h1] at h
        simp at h
        cases h2 : process_opt_pairs page t1 parameters with
        | none => rw [h2] at h; simp at h
        | some tp =>
          rw [h2] at h
          simp at h
          have A1 := walk_nodes page name t t1 h1 hwf hok1
          have A2 := walk_opt_pairs page parameters t1 tp h2 A1.1 hok2
          exact adds_trans (adds_trans A1 A2) (walk_nodes page rest tp t2 h A2.1 hok3)
    | Bold s e =>
      simp only [process_nodes] at h
      simp only [headingsIn, List.nil_append] at hok ⊢
      simp at h
      exact walk_nodes page rest t t2 h hwf hok
    | BoldItalic s e =>
      simp only [process_nodes] at h
      simp only [headingsIn, List.nil_append] at hok ⊢
      simp at h
      exact walk_nodes page rest t t2 h hwf hok
    | Category s e =>
      simp only [process_nodes] at h
      simp only [headingsIn, List.nil_append] at hok ⊢
      simp at h
      exact walk_nodes page rest t t2 h hwf hok
    | CharacterEntity s e =>
      simp only [process_nodes] at h
      simp only [headingsIn, List.nil_append] at hok ⊢
      simp at h
      exact walk_nodes page rest t t2 h hwf hok
    | Comment s e =>
      simp only [process_nodes] at h
      simp only [headingsIn, List.nil_append] at hok ⊢
      simp at h
      exact walk_nodes page rest t t2 h hwf hok
    | EndTag s e =>
      simp only [process_nodes] at h
      simp only [headingsIn, List.nil_append] at hok ⊢
      simp at h
      exact walk_nodes page rest t t2 h hwf hok
    | ExternalLink s e =>
      simp only [process_nodes] at h
      simp only [headingsIn, List.nil_append] at hok ⊢
      simp at h
      exact walk_nodes page rest t t2 h hwf hok
    | HorizontalDivider s e =>
      simp only [process_nodes] at h
      simp only [headingsIn, List.nil_append] at hok ⊢
      simp at h
      exact walk_nodes page rest t t2 h hwf hok
    | Italic s e =>
      simp only [process_nodes] at h
      simp only [headingsIn, List.nil_append] at hok ⊢
      simp at h
      exact walk_nodes page rest t t2 h hwf hok
    | MagicWord s e =>
      simp only [process_nodes] at h
      simp only [headingsIn, List.nil_append] at hok ⊢
      simp at h
      exact walk_nodes page rest t t2 h hwf hok
    | ParagraphBreak s e =>
      simp only [process_nodes] at h
      simp only [headingsIn, List.nil_append] at hok ⊢
      simp at h
      exact walk_nodes page rest t t2 h hwf hok
    | Redirect s e =>
      simp only [process_nodes] at h
      simp only [headingsIn, List.nil_append] at hok ⊢
      simp at h
      exact walk_nodes page rest t t2 h hwf hok
    | StartTag s e =>
      simp only [process_nodes] at h
      simp only [headingsIn, List.nil_append] at hok ⊢
      simp at h
      exact walk_nodes page rest t t2 h hwf hok
    | Text s e =>
      simp only [process_nodes] at h
      simp only [headingsIn, List.nil_append] at hok ⊢
      simp at h
      exact walk_nodes page rest t t2 h hwf hok
  termination_by ns => sizeOf ns

theorem walk_items (page : Page) :
    ∀ (items : List (List Node)) (t t2 : Table),
      process_items page t items = some t2 →
      TableWF t → HeadsOKP (headingsInItems items) →
      Adds t t2 page.text (headingsInItems items)
  | [], t, t2, h, hwf, _ => by
    simp [process_items] at h
    subst h
    simpa [headingsInItems] using adds_nil t page.text hwf
  | item :: rest, t, t2, h, hwf, hok => by
    simp only [process_items] at h
    simp only [headingsInItems] at hok ⊢
    obtain ⟨hok1, hok2⟩ := headsOKP_append_elim hok
    cases h1 : process_nodes page t item with
    | none => rw [h1] at h; simp at h
    | some t1 =>
      rw [h1] at h
      simp at h
      have A1 := walk_nodes page item t t1 h1 hwf hok1
      exact adds_trans A1 (walk_items page rest t1 t2 h A1.1 hok2)
  termination_by items => sizeOf items

theorem walk_opt_pairs (page : Page) :
    ∀ (ps : List (Option (List Node) × List Node)) (t t2 : Table),
      process_opt_pairs page t ps = some t2 →
      TableWF t → HeadsOKP (headingsInOptPairs ps) →
      Adds t t2 page.text (headingsInOptPairs ps)
  | [], t, t2, h, hwf, _ => by
    simp [process_opt_pairs] at h
    subst h
    simpa [headingsInOptPairs] using adds_nil t page.text hwf
  | (opt, nodes) :: rest, t, t2, h, hwf, hok => by
    cases opt with
    | none =>
      simp only [process_opt_pairs] at h
      simp only [headingsInOptPairs, List.nil_append] at hok ⊢
      obtain ⟨hok1, hok2⟩ := headsOKP_append_elim hok
      simp at h
      cases h1 : process_nodes page t nodes with
      | none => rw [h1] at h; simp at h
      | some t1 =>
        rw [h1] at h
        simp at h
        have A1 := walk_nodes page nodes t t1 h1 hwf hok1
        exact adds_trans A1 (walk_opt_pairs page rest t1 t2 h A1.1 hok2)
    | some att =>
      simp only [process_opt_pairs] at h
      simp only [headingsInOptPairs] at hok ⊢
      obtain ⟨hok12, hok3⟩ := headsOKP_append_elim hok
      obtain ⟨hok1, hok2⟩ := headsOKP_append_elim hok12
      cases h1 : process_nodes page t att with
      | none => rw [h1] at h; simp at h
      | some t1 =>
        rw [h1] at h
        simp at h
        cases h2 : process_nodes page t1 nodes with
        | none => rw [h2] at h; simp at h
        | some tn =>
          rw [h2] at h
          simp at h
          have A1 := walk_nodes page att t t1 h1 hwf hok1
          have A2 := walk_nodes page nodes t1 tn h2 A1.1 hok2
          exact adds_trans (adds_trans A1 A2)
            (walk_opt_pairs page rest tn t2 h A2.1 hok3)
  termination_by ps => sizeOf ps

theorem walk_rows (page : Page) :
    ∀ (rows : List (List Node × List (Option (List Node) × List Node)))
      (t t2 : Table), process_rows page t rows = some t2 →
      TableWF t → HeadsOKP (headingsInRows rows) →
      Adds t t2 page.text (headingsInRows rows)
  | [], t, t2, h, hwf, _ => by
    simp [process_rows] at h
    subst h
    simpa [headingsInRows] using adds_nil t page.text hwf
  | (attributes, cells) :: rest, t, t2, h, hwf, hok => by
    simp only [process_rows] at h
    simp only [headingsInRows] at hok ⊢
    obtain ⟨hok12, hok3⟩ := headsOKP_append_elim hok
    obtain ⟨hok1, hok2⟩ := headsOKP_append_elim hok12
    cases h1 : process_nodes page t attributes with
    | none => rw [h1] at h; simp at h
    | some t1 =>
      rw [h1] at h
      simp at h
      cases h2 : process_opt_pairs page t1 cells with
      | none => rw [h2] at h; simp at h
      | some tc =>
        rw [h2] at h
        simp at h
        have A1 := walk_nodes page attributes t t1 h1 hwf hok1
        have A2 := walk_opt_pairs page cells t1 tc h2 A1.1 hok2
        exact adds_trans (adds_trans A1 A2) (walk_rows page rest tc t2 h A2.1 hok3)
  termination_by rows => sizeOf rows

end

/-! ## Lemmas about the page-selection pipeline -/

theorem parseRun_zero (resolve : NsResolver) (nss : List Int)
    (pm : Str → ParserOutput) (stream : List (Except Str Page)) (t : Table) :
    parseRun resolve nss pm stream 0 t = .ok t := by
  cases stream <;> simp [parseRun]

theorem parseRun_skip (resolve : NsResolver) (nss : List Int)
    (pm : Str → ParserOutput) (p : Page) (ns : Int)
    (hres : resolve p.nsCode = some ns) (hnot : ns ∉ nss) :
    ∀ (s1 s2 : List (Except Str Page)) (n : Nat) (t : Table),
      parseRun resolve nss pm (s1 ++ .ok p :: s2) n t =
        parseRun resolve nss pm (s1 ++ s2) n t
  | [], s2, 0, t => by simp [parseRun_zero]
  | [], s2, n + 1, t => by
    simp only [List.nil_append]
    simp [parseRun, hres, hnot]
  | .error e :: s1, s2, 0, t => by simp [parseRun_zero]
  | .error e :: s1, s2, n + 1, t => by simp [parseRun]
  | .ok q :: s1, s2, 0, t => by simp [parseRun_zero]
  | .ok q :: s1, s2, n + 1, t => by
    cases hq : resolve q.nsCode with
    | none => simp [parseRun, hq]
    | some m =>
      by_cases hm : m ∈ nss
      · cases hpr : process_nodes q t (pm q.text).nodes with
        | none => simp [parseRun, hq, hm, hpr]
        | some t3 =>
          simp only [List.cons_append]
          simp [parseRun, hq, hm, hpr]
          exact parseRun_skip resolve nss pm p ns hres hnot s1 s2 n t3
      · simp only [List.cons_append]
        simp [parseRun, hq, hm]
        exact parseRun_skip resolve nss pm p ns hres hnot s1 s2 (n + 1) t

theorem parseRun_append_of_le (resolve : NsResolver) (nss : List Int)
    (pm : Str → ParserOutput) :
    ∀ (s1 s2 : List (Except Str Page)) (n : Nat) (t : Table),
      n ≤ selectedCount resolve nss s1 →
      parseRun resolve nss pm (s1 ++ s2) n t = parseRun resolve nss pm s1 n t
  | s1, s2, 0, t, _ => by simp [parseRun_zero]
  | [], s2, n + 1, t, hle => by simp [selectedCount] at hle
  | .error e :: s1, s2, n + 1, t, _ => by simp [parseRun]
  | .ok q :: s1, s2, n + 1, t, hle => by
    cases hq : resolve q.nsCode with
    | none => simp [parseRun, hq]
    | some m =>
      have hcount : selectedCount resolve nss (.ok q :: s1) =
          (if m ∈ nss then 1 else 0) + selectedCount resolve nss s1 := by
        simp [selectedCount, hq]
      by_cases hm : m ∈ nss
      · cases hpr : process_nodes q t (pm q.text).nodes with
        | none => simp [parseRun, hq, hm, hpr]
        | some t3 =>
          simp only [List.cons_append]
          simp [parseRun, hq, hm, hpr]
          refine parseRun_append_of_le resolve nss pm s1 s2 n t3 ?_
          rw [hcount, if_pos hm] at hle
          omega
      · simp only [List.cons_append]
        simp [parseRun, hq, hm]
        refine parseRun_append_of_le resolve nss pm s1 s2 (n + 1) t ?_
        rw [hcount, if_neg hm] at hle
        omega

theorem parseRunAux_append (resolve : NsResolver) (nss : List Int)
    (pm : Str → ParserOutput) :
    ∀ (s1 s2 : List (Except Str Page)) (n : Nat) (t : Table) (m : Nat) (t3 : Table),
      parseRunAux resolve nss pm s1 n t = .ok (m, t3) →
      parseRun resolve nss pm (s1 ++ s2) n t = parseRun resolve nss pm s2 m t3
  | [], s2, 0, t, m, t3, h => by
    simp [parseRunAux] at h
    obtain ⟨rfl, rfl⟩ := h
    simp [parseRun_zero]
  | [], s2, n + 1, t, m, t3, h => by
    simp [parseRunAux] at h
    obtain ⟨rfl, rfl⟩ := h
    simp
  | .error e :: s1, s2, n, t, m, t3, h => by
    cases n with
    | zero =>
      simp [parseRunAux] at h
      obtain ⟨rfl, rfl⟩ := h
      simp [parseRun_zero]
    | succ n => simp [parseRunAux] at h
  | .ok q :: s1, s2, n, t, m, t3, h => by
    cases n with
    | zero =>
      simp [parseRunAux] at h
      obtain ⟨rfl, rfl⟩ := h
      simp [parseRun_zero]
    | succ n =>
      cases hq : resolve q.nsCode with
      | none => simp [parseRunAux, hq] at h
      | some ns =>
        by_cases hm : ns ∈ nss
        · cases hpr : process_nodes q t (pm q.text).nodes with
          | none => simp [parseRunAux, hq, hm, hpr] at h
          | some t4 =>
            simp only [parseRunAux, hq, hm, hpr, if_pos] at h
            simp only [List.cons_append]
            simp [parseRun, hq, hm, hpr]
            exact parseRunAux_append resolve nss pm s1 s2 n t4 m t3 h
        · simp only [parseRunAux, hq, hm, if_neg, not_false_iff] at h
          simp only [List.cons_append]
          simp [parseRun, hq, hm]
          exact parseRunAux_append resolve nss pm s1 s2 (n + 1) t m t3 h

theorem selectedPages_zero (resolve : NsResolver) (nss : List Int)
    (stream : List (Except Str Page)) :
    selectedPages resolve nss stream 0 = [] := by
  cases stream <;> simp [selectedPages]

theorem corpusCount_nil (pm : Str → ParserOutput) (k : Str) (L : Nat) :
    corpusCount pm k L [] = 0 := by
  simp [corpusCount]

theorem parseRun_counts (resolve : NsResolver) (nss : List Int)
    (pm : Str → ParserOutput) :
    ∀ (stream : List (Except Str Page)) (n : Nat) (t t2 : Table),
      parseRun resolve nss pm stream n t = .ok t2 → TableWF t →
      (∀ p, Except.ok p ∈ stream → HeadsOK (pm p.text).nodes) →
      TableWF t2 ∧ ∀ k L, MIN_HEADER_LEVEL ≤ L → L ≤ MAX_HEADER_LEVEL →
        tableCount t2 k L = tableCount t k L +
          corpusCount pm k L (selectedPages resolve nss stream n)
  | stream, 0, t, t2, h, hwf, _ => by
    rw [parseRun_zero] at h
    injection h with h
    subst h
    refine ⟨hwf, fun k L _ _ => ?_⟩
    rw [selectedPages_zero, corpusCount_nil]
    omega
  | [], n + 1, t, t2, h, hwf, _ => by
    simp [parseRun] at h
    subst h
    refine ⟨hwf, fun k L _ _ => ?_⟩
    simp [selectedPages, corpusCount_nil]
  | .error e :: rest, n + 1, t, t2, h, hwf, hheads => by
    simp [parseRun] at h
  | .ok q :: rest, n + 1, t, t2, h, hwf, hheads => by
    cases hq : resolve q.nsCode with
    | none => simp [parseRun, hq] at h
    | some m =>
      by_cases hm : m ∈ nss
      · cases hpr : process_nodes q t (pm q.text).nodes with
        | none => simp [parseRun, hq, hm, hpr] at h
        | some t3 =>
          simp only [parseRun, hq, hm, hpr, if_pos] at h
          have hq_ok : HeadsOK (pm q.text).nodes :=
            hheads q (List.mem_cons_self _ _)
          have A1 := walk_nodes q (pm q.text).nodes t t3 hpr hwf hq_ok
          have hrest : ∀ p, Except.ok p ∈ rest → HeadsOK (pm p.text).nodes :=
            fun p hp => hheads p (List.mem_cons_of_mem _ hp)
          obtain ⟨hwf2, hcnt⟩ :=
            parseRun_counts resolve nss pm rest n t3 t2 h A1.1 hrest
          refine ⟨hwf2, fun k L hL2 hL6 => ?_⟩
          rw [hcnt k L hL2 hL6, A1.2 k L hL2 hL6]
          have hsel : selectedPages resolve nss (.ok q :: rest) (n + 1) =
              q :: selectedPages resolve nss rest n := by
            simp [selectedPages, hq, hm]
          rw [hsel]
          simp [corpusCount, countHeadings]
          omega
      · simp only [parseRun, hq, hm, if_neg, not_false_iff] at h
        have hrest : ∀ p, Except.ok p ∈ rest → HeadsOK (pm p.text).nodes :=
          fun p hp => hheads p (List.mem_cons_of_mem _ hp)
        obtain ⟨hwf2, hcnt⟩ :=
          parseRun_counts resolve nss pm rest (n + 1) t t2 h hwf hrest
        refine ⟨hwf2, fun k L hL2 hL6 => ?_⟩
        rw [hcnt k L hL2 hL6]
        have hsel : selectedPages resolve nss (.ok q :: rest) (n + 1) =
            selectedPages resolve nss rest (n + 1) := by
          simp [selectedPages, hq, hm]
        rw [hsel]

/-! ## Claim theorems -/

/-- C9: the key-trimming operation of the header key extractor is idempotent —
trimming the already-trimmed result of any string yields the same string as
trimming it once, and consequently every header key is a fixed point of the
trim. -/
theorem C9_trim_idempotent :
    (∀ s : Str, trimSpaceTab (trimSpaceTab s) = trimSpaceTab s) ∧
    (∀ (text : Str) (nodes : List Node),
      trimSpaceTab (headerKey text nodes) = headerKey text nodes) :=
  ⟨trimSpaceTab_idem,
   fun text nodes => trimSpaceTab_idem (get_nodes_text text nodes)⟩

/-- C10: for every heading level in [2,6] the `Index`/`IndexMut` accessors
compute the array index as `level - 2`, which lies in [0,4] and is within the
bounds of the 5-slot counts array, so the increment in `process_header`
succeeds; for a level below 2 the `usize` subtraction wraps around and the
access fails (the panic modelled by `none`), so the precondition is
required. -/
theorem C10_level_index_safety :
    HEADER_LEVEL_ARRAY_SIZE = 5 ∧
    (∀ level, MIN_HEADER_LEVEL ≤ level → level ≤ MAX_HEADER_LEVEL →
      levelIndex level = level - MIN_HEADER_LEVEL ∧
      level - MIN_HEADER_LEVEL ≤ 4 ∧
      ∀ c : HeaderCounts, c.length = HEADER_LEVEL_ARRAY_SIZE →
        (c.incrAt level).isSome = true) ∧
    (∀ level, level < MIN_HEADER_LEVEL →
      ∀ c : HeaderCounts, c.length = HEADER_LEVEL_ARRAY_SIZE →
        c.incrAt level = none) := by
  refine ⟨rfl, ?_, ?_⟩
  · intro level h2 h6
    refine ⟨levelIndex_of_range level h2 h6, ?_, ?_⟩
    · simp only [MIN_HEADER_LEVEL, MAX_HEADER_LEVEL] at *
      omega
    · intro c hc
      obtain ⟨v, hv, hi⟩ := incrAt_of_range c level hc h2 h6
      rw [hi]
      rfl
  · intro level hlt c hc
    have hbig := levelIndex_big_of_lt level hlt
    unfold HeaderCounts.incrAt
    rw [List.get?_eq_none.mpr (by omega)]

/-- Witness for C10 at the concrete levels 2 (in range) and 1 (underflow) on
the freshly created counter array. -/
theorem C10_level_index_safety_witness :
    (MIN_HEADER_LEVEL ≤ 2 ∧ 2 ≤ MAX_HEADER_LEVEL ∧
      HeaderCounts.new.length = HEADER_LEVEL_ARRAY_SIZE ∧
      (1 : Nat) < MIN_HEADER_LEVEL) ∧
    levelIndex 2 = 2 - MIN_HEADER_LEVEL ∧
    (HeaderCounts.new.incrAt 2).isSome = true ∧
    HeaderCounts.new.incrAt 1 = none :=
  ⟨by decide,
   (C10_level_index_safety.2.1 2 (by decide) (by decide)).1,
   (C10_level_index_safety.2.1 2 (by decide) (by decide)).2.2
     HeaderCounts.new (by decide),
   C10_level_index_safety.2.2 1 (by decide) HeaderCounts.new (by decide)⟩

/-- C8 counterexample: the claim as stated is false at a warning whose end
position equals the text length. With text `"a"` (length 1) and warning range
`(0, 1)` — a range within the valid slicing range, its end equal to the text
length — the code emits the out-of-range diagnostic, not the message with the
substring `text[0..1]` as the claim requires. -/
theorem C8_counterexample :
    reportWarning ⟨['T'], 0, ['a']⟩ ⟨0, 1, ['m']⟩ =
      Diagnostic.outOfRange 0 1 ['m'] 1 ['T'] ∧
    (0 : Nat) ≤ 1 ∧ (1 : Nat) ≤ (['a'] : Str).length ∧
    Diagnostic.outOfRange 0 1 ['m'] 1 ['T'] ≠
      Diagnostic.warningAt (trimEndDots ['m']) 0 1 (((['a'] : Str).take 1).drop 0) ['T'] := by
  refine ⟨by decide, by decide, by decide, by decide⟩

/-- C8 (amended): for every warning whose positions are both strictly below
the text length (the code's `Range::contains` check on `0..len` is strict at
the upper end for both `start` and `end`), the trimmed message is reported
together with the slice `text[start..end]`, whose length is `end - start`;
otherwise — including a range whose end equals the text length, where the
slice itself would still be valid — the distinct out-of-range diagnostic is
emitted and the text is not sliced. -/
theorem C8_warning_range (page : Page) (w : Warning) :
    (w.start < page.text.length ∧ w.stop < page.text.length →
      reportWarning page w =
        .warningAt (trimEndDots w.message) w.start w.stop
          ((page.text.take w.stop).drop w.start) page.title ∧
      ((page.text.take w.stop).drop w.start).length = w.stop - w.start) ∧
    (¬(w.start < page.text.length ∧ w.stop < page.text.length) →
      reportWarning page w =
        .outOfRange w.start w.stop (trimEndDots w.message)
          page.text.length page.title) := by
  constructor
  · intro h
    constructor
    · simp [reportWarning, h.1, h.2]
    · rw [List.length_drop, List.length_take]
      have := h.2
      omega
  · intro h
    simp only [reportWarning, if_pos h]

/-- Witness for C8 (amended) at a concrete in-range warning: text `"ab"`,
range `(0, 1)`, message `"m."`. -/
theorem C8_warning_range_witness :
    ((0 : Nat) < (['a', 'b'] : Str).length ∧ (1 : Nat) < (['a', 'b'] : Str).length) ∧
    reportWarning ⟨['T'], 0, ['a', 'b']⟩ ⟨0, 1, ['m', '.']⟩ =
      .warningAt (trimEndDots ['m', '.']) 0 1 (((['a', 'b'] : Str).take 1).drop 0) ['T'] ∧
    (((['a', 'b'] : Str).take 1).drop 0).length = 1 - 0 :=
  ⟨by decide, (C8_warning_range ⟨['T'], 0, ['a', 'b']⟩ ⟨0, 1, ['m', '.']⟩).1 (by decide)⟩

/-- C3: a `Heading` node records exactly one occurrence via the header key
extractor and the count table, and its children are not recursed into as
generic content — processing a heading is exactly `process_header`, and a
successful `process_header` raises the total of all counts by exactly one,
so a heading nested in another heading's child sequence never produces a
second count. -/
theorem C3_heading_counted_once (page : Page) (t : Table) (s e : Nat)
    (children : List Node) (lvl : Nat) :
    process_nodes page t [Node.Heading s e children lvl] =
      process_header page t children lvl ∧
    (∀ t2, TableWF t → lvl < 256 → process_header page t children lvl = some t2 →
      tableTotal t2 = tableTotal t + 1) := by
  constructor
  · cases h : process_header page t children lvl with
    | none => simp [process_nodes, h]
    | some t1 => simp [process_nodes, h]
  · intro t2 hwf hu8 h
    exact (process_header_spec page t children lvl t2 hwf hu8 h).2

/-- Witness for C3 at a heading whose child sequence itself contains a
heading node: the total count still rises by exactly one. -/
theorem C3_heading_counted_once_witness :
    TableWF ([] : Table) ∧ (2 : Nat) < 256 ∧
    process_header ⟨[], 0, ['F', 'o', 'o']⟩ [] [Node.Heading 0 3 [Node.Text 0 3] 3] 2 =
      some [(['F', 'o', 'o'], [1, 0, 0, 0, 0])] ∧
    tableTotal [(['F', 'o', 'o'], [1, 0, 0, 0, 0])] = tableTotal ([] : Table) + 1 :=
  ⟨tableWF_nil, by decide, by decide,
   (C3_heading_counted_once ⟨[], 0, ['F', 'o', 'o']⟩ [] 0 3
       [Node.Heading 0 3 [Node.Text 0 3] 3] 2).2
     [(['F', 'o', 'o'], [1, 0, 0, 0, 0])] tableWF_nil (by decide) (by decide)⟩

/-- C4: the header key is the flattened plain text of the heading children
with exactly the leading and trailing ASCII space and tab characters removed —
the text decomposes as `pre ++ key ++ suf` with `pre` and `suf` made of
spaces/tabs only, and the key neither starts nor ends with a space or tab —
and a successful `process_header` increments exactly the entry of that key at
that level, so two headings update the same entry if and only if their
trimmed plain texts are byte-for-byte identical. -/
theorem C4_header_key_trim (page : Page) (t : Table) (nodes : List Node)
    (lvl : Nat) :
    process_header page t nodes lvl =
      entryIncr t (trimSpaceTab (get_nodes_text page.text nodes)) lvl ∧
    (∃ pre suf, get_nodes_text page.text nodes =
        pre ++ headerKey page.text nodes ++ suf ∧
      (∀ c ∈ pre, isSpaceTab c = true) ∧ (∀ c ∈ suf, isSpaceTab c = true)) ∧
    (∀ x, (headerKey page.text nodes).head? = some x → isSpaceTab x = false) ∧
    (∀ x, (headerKey page.text nodes).getLast? = some x → isSpaceTab x = false) ∧
    (∀ t2, TableWF t → lvl < 256 → process_header page t nodes lvl = some t2 →
      ∀ k L, MIN_HEADER_LEVEL ≤ L → L ≤ MAX_HEADER_LEVEL →
        tableCount t2 k L = tableCount t k L +
          (if k = headerKey page.text nodes ∧ L = lvl then 1 else 0)) := by
  refine ⟨rfl, trimSpaceTab_decomp _, trimSpaceTab_head _, trimSpaceTab_getLast _, ?_⟩
  intro t2 hwf hu8 h k L hL2 hL6
  unfold process_header at h
  have hlt := entryIncr_levelIndex_lt t _ lvl t2 hwf h
  obtain ⟨hl2, hl6⟩ := range_of_levelIndex lvl hu8 hlt
  obtain ⟨t3, he, _, _, hcnt⟩ :=
    entryIncr_spec (headerKey page.text nodes) lvl hl2 hl6 t hwf
  rw [he] at h
  obtain rfl : t3 = t2 := Option.some.inj h
  exact hcnt k L hL2 hL6

/-- Witness for C4 on the page text `"  Foo "`: the key is the trimmed
`"Foo"` and the increment lands on that entry at level 2. -/
theorem C4_header_key_trim_witness :
    TableWF ([] : Table) ∧ (2 : Nat) < 256 ∧
    process_header ⟨[], 0, [' ', ' ', 'F', 'o', 'o', ' ']⟩ [] [Node.Text 0 6] 2 =
      some [(['F', 'o', 'o'], [1, 0, 0, 0, 0])] ∧
    MIN_HEADER_LEVEL ≤ 2 ∧ 2 ≤ MAX_HEADER_LEVEL ∧
    tableCount [(['F', 'o', 'o'], [1, 0, 0, 0, 0])] ['F', 'o', 'o'] 2 =
      tableCount ([] : Table) ['F', 'o', 'o'] 2 +
        (if (['F', 'o', 'o'] : Str) =
            headerKey [' ', ' ', 'F', 'o', 'o', ' '] [Node.Text 0 6] ∧ 2 = 2
         then 1 else 0) :=
  ⟨tableWF_nil, by decide, by decide, by decide, by decide,
   (C4_header_key_trim ⟨[], 0, [' ', ' ', 'F', 'o', 'o', ' ']⟩ [] [Node.Text 0 6]
       2).2.2.2.2 [(['F', 'o', 'o'], [1, 0, 0, 0, 0])] tableWF_nil (by decide)
     (by decide) ['F', 'o', 'o'] 2 (by decide) (by decide)⟩

/-- C5: a page whose namespace resolves to a value outside the include set
contributes nothing to the run — deleting it from the stream, wherever it
occurs, leaves the whole run's result unchanged, even if its markup parses to
a tree full of headings. -/
theorem C5_namespace_filtering (resolve : NsResolver) (nss : List Int)
    (pm : Str → ParserOutput) (p : Page) (ns : Int)
    (hres : resolve p.nsCode = some ns) (hnot : ns ∉ nss)
    (s1 s2 : List (Except Str Page)) (n : Nat) (t : Table) :
    parseRun resolve nss pm (s1 ++ .ok p :: s2) n t =
      parseRun resolve nss pm (s1 ++ s2) n t :=
  parseRun_skip resolve nss pm p ns hres hnot s1 s2 n t

/-- Witness for C5: a page in namespace 5, outside the include set `[0]`,
whose markup parses to a level-2 heading, can be dropped from the stream
without changing the run. -/
theorem C5_namespace_filtering_witness :
    ((fun x : Int => some x) ((⟨[], 5, ['F', 'o', 'o']⟩ : Page).nsCode) = some 5 ∧
      (5 : Int) ∉ [(0 : Int)]) ∧
    parseRun (fun x : Int => some x) [0]
        (fun _ => ⟨[Node.Heading 0 3 [Node.Text 0 3] 2], []⟩)
        ([] ++ .ok ⟨[], 5, ['F', 'o', 'o']⟩ :: []) 3 [] =
      parseRun (fun x : Int => some x) [0]
        (fun _ => ⟨[Node.Heading 0 3 [Node.Text 0 3] 2], []⟩)
        ([] ++ []) 3 [] :=
  ⟨⟨rfl, by decide⟩,
   C5_namespace_filtering (fun x : Int => some x) [0]
     (fun _ => ⟨[Node.Heading 0 3 [Node.Text 0 3] 2], []⟩)
     ⟨[], 5, ['F', 'o', 'o']⟩ 5 rfl (by decide) [] [] 3 []⟩

/-- C6: with page limit 0 no page is processed and the table is returned as
it started (so a run from the empty table ends empty); and whenever a stream
prefix already contains at least `n` pages passing the namespace filter,
everything after that prefix is irrelevant to a run with limit `n` — only
the first `n` selected pages, in stream order, are ever processed. -/
theorem C6_page_limit (resolve : NsResolver) (nss : List Int)
    (pm : Str → ParserOutput) :
    (∀ (stream : List (Except Str Page)) (t : Table),
      parseRun resolve nss pm stream 0 t = .ok t) ∧
    (∀ (s1 s2 : List (Except Str Page)) (n : Nat) (t : Table),
      n ≤ selectedCount resolve nss s1 →
      parseRun resolve nss pm (s1 ++ s2) n t = parseRun resolve nss pm s1 n t) :=
  ⟨fun stream t => parseRun_zero resolve nss pm stream t,
   fun s1 s2 n t h => parseRun_append_of_le resolve nss pm s1 s2 n t h⟩

/-- Witness for C6: limit 0 yields the empty table on a nonempty stream, and
with limit 1 a trailing second page (and even a trailing dump error) is never
reached once one selected page precedes it. -/
theorem C6_page_limit_witness :
    parseRun (fun x : Int => some x) [0]
        (fun _ => ⟨[Node.Heading 0 3 [Node.Text 0 3] 2], []⟩)
        [Except.ok ⟨[], 0, ['F', 'o', 'o']⟩] 0 [] = .ok [] ∧
    1 ≤ selectedCount (fun x : Int => some x) [0]
        [Except.ok ⟨[], 0, ['F', 'o', 'o']⟩] ∧
    parseRun (fun x : Int => some x) [0]
        (fun _ => ⟨[Node.Heading 0 3 [Node.Text 0 3] 2], []⟩)
        ([Except.ok ⟨[], 0, ['F', 'o', 'o']⟩] ++ [Except.error ['b']]) 1 [] =
      parseRun (fun x : Int => some x) [0]
        (fun _ => ⟨[Node.Heading 0 3 [Node.Text 0 3] 2], []⟩)
        [Except.ok ⟨[], 0, ['F', 'o', 'o']⟩] 1 [] :=
  ⟨(C6_page_limit (fun x : Int => some x) [0]
      (fun _ => ⟨[Node.Heading 0 3 [Node.Text 0 3] 2], []⟩)).1
     [Except.ok ⟨[], 0, ['F', 'o', 'o']⟩] [],
   by decide,
   (C6_page_limit (fun x : Int => some x) [0]
      (fun _ => ⟨[Node.Heading 0 3 [Node.Text 0 3] 2], []⟩)).2
     [Except.ok ⟨[], 0, ['F', 'o', 'o']⟩] [Except.error ['b']] 1 [] (by decide)⟩

/-- C7: when a run still has page budget after consuming a stream prefix, a
dump-parse error or a page with an unresolvable namespace code at the next
position aborts the entire run with the corresponding fatal error — for
every possible continuation of the stream, so nothing after that point is
processed and no partial table is ever returned. -/
theorem C7_fatal_abort (resolve : NsResolver) (nss : List Int)
    (pm : Str → ParserOutput) (s1 : List (Except Str Page)) (n : Nat)
    (t : Table) (m : Nat) (t3 : Table)
    (hpre : parseRunAux resolve nss pm s1 n t = .ok (m + 1, t3)) :
    (∀ (e : Str) (s2 : List (Except Str Page)),
      parseRun resolve nss pm (s1 ++ .error e :: s2) n t =
        .error (.dumpError e)) ∧
    (∀ (p : Page) (s2 : List (Except Str Page)), resolve p.nsCode = none →
      parseRun resolve nss pm (s1 ++ .ok p :: s2) n t =
        .error .namespaceUnresolved) := by
  constructor
  · intro e s2
    rw [parseRunAux_append resolve nss pm s1 (.error e :: s2) n t (m + 1) t3 hpre]
    simp [parseRun]
  · intro p s2 hp
    rw [parseRunAux_append resolve nss pm s1 (.ok p :: s2) n t (m + 1) t3 hpre]
    simp [parseRun, hp]

/-- Witness for C7 at the empty prefix with budget 1: a dump error aborts
with the dump-error panic and an unresolvable namespace code (9, with only 0
known) aborts with the unwrap panic, in both cases for a nonempty
continuation that is never reached. -/
theorem C7_fatal_abort_witness :
    parseRunAux (fun x : Int => if x = 0 then some 0 else none) [0]
        (fun _ => ⟨[], []⟩) [] 1 [] = .ok (0 + 1, []) ∧
    parseRun (fun x : Int => if x = 0 then some 0 else none) [0]
        (fun _ => ⟨[], []⟩)
        ([] ++ .error ['b'] :: [Except.ok ⟨[], 0, []⟩]) 1 [] =
      .error (.dumpError ['b']) ∧
    parseRun (fun x : Int => if x = 0 then some 0 else none) [0]
        (fun _ => ⟨[], []⟩)
        ([] ++ .ok ⟨[], 9, []⟩ :: [Except.ok ⟨[], 0, []⟩]) 1 [] =
      .error .namespaceUnresolved :=
  ⟨rfl,
   (C7_fatal_abort (fun x : Int => if x = 0 then some 0 else none) [0]
      (fun _ => ⟨[], []⟩) [] 1 [] 0 [] rfl).1 ['b']
     [Except.ok ⟨[], 0, []⟩],
   (C7_fatal_abort (fun x : Int => if x = 0 then some 0 else none) [0]
      (fun _ => ⟨[], []⟩) [] 1 [] 0 [] rfl).2 ⟨[], 9, []⟩
     [Except.ok ⟨[], 0, []⟩] (by decide)⟩

/-- C2: recursion completeness — wrapping a node sequence in any of the
structurally nesting positions (a definition/ordered/unordered list item, a
table cell's content or attributes, a table caption's content or attributes,
the table's or a row's attribute nodes, a template's name, a template
parameter's value or name, a parameter node's name or default, link or image
text, or Preformatted/Tag children) leaves `process_nodes` unchanged, so a
heading nested there is still visited and counted; concretely, a table cell
containing a level-2 heading with content `Foo` increments Foo's level-2
count from the empty table to 1. -/
theorem C2_recursion_completeness :
    (∀ (page : Page) (t : Table) (s e : Nat) (ns : List Node),
      process_nodes page t [Node.DefinitionList s e [ns]] = process_nodes page t ns) ∧
    (∀ (page : Page) (t : Table) (s e : Nat) (ns : List Node),
      process_nodes page t [Node.OrderedList s e [ns]] = process_nodes page t ns) ∧
    (∀ (page : Page) (t : Table) (s e : Nat) (ns : List Node),
      process_nodes page t [Node.UnorderedList s e [ns]] = process_nodes page t ns) ∧
    (∀ (page : Page) (t : Table) (s e : Nat) (ns : List Node),
      process_nodes page t [Node.Table s e [] [] [([], [(none, ns)])]] =
        process_nodes page t ns) ∧
    (∀ (page : Page) (t : Table) (s e : Nat) (ns : List Node),
      process_nodes page t [Node.Table s e [] [] [([], [(some ns, [])])]] =
        process_nodes page t ns) ∧
    (∀ (page : Page) (t : Table) (s e : Nat) (ns : List Node),
      process_nodes page t [Node.Table s e [] [(none, ns)] []] =
        process_nodes page t ns) ∧
    (∀ (page : Page) (t : Table) (s e : Nat) (ns : List Node),
      process_nodes page t [Node.Table s e [] [(some ns, [])] []] =
        process_nodes page t ns) ∧
    (∀ (page : Page) (t : Table) (s e : Nat) (ns : List Node),
      process_nodes page t [Node.Table s e ns [] []] = process_nodes page t ns) ∧
    (∀ (page : Page) (t : Table) (s e : Nat) (ns : List Node),
      process_nodes page t [Node.Table s e [] [] [(ns, [])]] =
        process_nodes page t ns) ∧
    (∀ (page : Page) (t : Table) (s e : Nat) (ns : List Node),
      process_nodes page t [Node.Template s e ns []] = process_nodes page t ns) ∧
    (∀ (page : Page) (t : Table) (s e : Nat) (ns : List Node),
      process_nodes page t [Node.Template s e [] [(none, ns)]] =
        process_nodes page t ns) ∧
    (∀ (page : Page) (t : Table) (s e : Nat) (ns : List Node),
      process_nodes page t [Node.Template s e [] [(some ns, [])]] =
        process_nodes page t ns) ∧
    (∀ (page : Page) (t : Table) (s e : Nat) (ns : List Node),
      process_nodes page t [Node.Parameter s e ns none] = process_nodes page t ns) ∧
    (∀ (page : Page) (t : Table) (s e : Nat) (ns : List Node),
      process_nodes page t [Node.Parameter s e [] (some ns)] =
        process_nodes page t ns) ∧
    (∀ (page : Page) (t : Table) (s e : Nat) (ns : List Node),
      process_nodes page t [Node.Link s e ns] = process_nodes page t ns) ∧
    (∀ (page : Page) (t : Table) (s e : Nat) (ns : List Node),
      process_nodes page t [Node.Image s e ns] = process_nodes page t ns) ∧
    (∀ (page : Page) (t : Table) (s e : Nat) (ns : List Node),
      process_nodes page t [Node.Preformatted s e ns] = process_nodes page t ns) ∧
    (∀ (page : Page) (t : Table) (s e : Nat) (ns : List Node),
      process_nodes page t [Node.Tag s e ns] = process_nodes page t ns) ∧
    (process_nodes ⟨[], 0, ['F', 'o', 'o']⟩ []
        [Node.Table 0 3 [] [] [([], [(none, [Node.Heading 0 3 [Node.Text 0 3] 2])])]] =
      some [(['F', 'o', 'o'], [1, 0, 0, 0, 0])] ∧
     tableCount [(['F', 'o', 'o'], [1, 0, 0, 0, 0])] ['F', 'o', 'o'] 2 = 1) := by
  refine ⟨?_, ?_, ?_, ?_, ?_, ?_, ?_, ?_, ?_, ?_, ?_, ?_, ?_, ?_, ?_, ?_, ?_, ?_, ?_, ?_⟩
  case _ => intro page t s e ns; cases h : process_nodes page t ns <;>
    simp [process_nodes, process_items, process_opt_pairs, process_rows, h]
  case _ => intro page t s e ns; cases h : process_nodes page t ns <;>
    simp [process_nodes, process_items, process_opt_pairs, process_rows, h]
  case _ => intro page t s e ns; cases h : process_nodes page t ns <;>
    simp [process_nodes, process_items, process_opt_pairs, process_rows, h]
  case _ => intro page t s e ns; cases h : process_nodes page t ns <;>
    simp [process_nodes, process_items, process_opt_pairs, process_rows, h]
  case _ => intro page t s e ns; cases h : process_nodes page t ns <;>
    simp [process_nodes, process_items, process_opt_pairs, process_rows, h]
  case _ => intro page t s e ns; cases h : process_nodes page t ns <;>
    simp [process_nodes, process_items, process_opt_pairs, process_rows, h]
  case _ => intro page t s e ns; cases h : process_nodes page t ns <;>
    simp [process_nodes, process_items, process_opt_pairs, process_rows, h]
  case _ => intro page t s e ns; cases h : process_nodes page t ns <;>
    simp [process_nodes, process_items, process_opt_pairs, process_rows, h]
  case _ => intro page t s e ns; cases h : process_nodes page t ns <;>
    simp [process_nodes, process_items, process_opt_pairs, process_rows, h]
  case _ => intro page t s e ns; cases h : process_nodes page t ns <;>
    simp [process_nodes, process_items, process_opt_pairs, process_rows, h]
  case _ => intro page t s e ns; cases h : process_nodes page t ns <;>
    simp [process_nodes, process_items, process_opt_pairs, process_rows, h]
  case _ => intro page t s e ns; cases h : process_nodes page t ns <;>
    simp [process_nodes, process_items, process_opt_pairs, process_rows, h]
  case _ => intro page t s e ns; cases h : process_nodes page t ns <;>
    simp [process_nodes, process_items, process_opt_pairs, process_rows, h]
  case _ => intro page t s e ns; cases h : process_nodes page t ns <;>
    simp [process_nodes, process_items, process_opt_pairs, process_rows, h]
  case _ => intro page t s e ns; cases h : process_nodes page t ns <;>
    simp [process_nodes, process_items, process_opt_pairs, process_rows, h]
  case _ => intro page t s e ns; cases h : process_nodes page t ns <;>
    simp [process_nodes, process_items, process_opt_pairs, process_rows, h]
  case _ => intro page t s e ns; cases h : process_nodes page t ns <;>
    simp [process_nodes, process_items, process_opt_pairs, process_rows, h]
  case _ => intro page t s e ns; cases h : process_nodes page t ns <;>
    simp [process_nodes, process_items, process_opt_pairs, process_rows, h]
  case _ =>
    simp [process_nodes, process_rows, process_opt_pairs, process_header,
      headerKey, get_nodes_text, trimSpaceTab, isSpaceTab, entryIncr,
      HeaderCounts.incrAt, HeaderCounts.new, levelIndex, USIZE_MOD,
      MIN_HEADER_LEVEL, MAX_HEADER_LEVEL, HEADER_LEVEL_ARRAY_SIZE,
      Node.start, Node.stop]
  case _ => decide

/-- C1: count conservation — for a run that completes (on parser output
where no heading nests inside another heading's children and heading levels
fit in a byte, as `parse_wiki_text` guarantees), the final count at every
key `k` and level `L` in [2,6] equals the exact number of `Heading` nodes
across the selected pages' parsed trees whose trimmed plain text is `k` and
whose level is `L`: one increment per heading, none double-counted, none
skipped. -/
theorem C1_count_conservation (resolve : NsResolver) (nss : List Int)
    (pm : Str → ParserOutput) (stream : List (Except Str Page)) (N : Nat)
    (k : Str) (L : Nat) (t : Table)
    (hL2 : MIN_HEADER_LEVEL ≤ L) (hL6 : L ≤ MAX_HEADER_LEVEL)
    (hheads : ∀ p, Except.ok p ∈ stream → HeadsOK (pm p.text).nodes)
    (hrun : parseRun resolve nss pm stream N [] = .ok t) :
    tableCount t k L = corpusCount pm k L (selectedPages resolve nss stream N) := by
  obtain ⟨_, hcnt⟩ :=
    parseRun_counts resolve nss pm stream N [] t hrun tableWF_nil hheads
  rw [hcnt k L hL2 hL6, tableCount_nil]
  omega

/-- Witness for C1 on a one-page corpus whose markup parses to a single
level-2 heading `Foo`: the run yields the table with Foo's level-2 count 1,
matching the specification count. -/
theorem C1_count_conservation_witness :
    (MIN_HEADER_LEVEL ≤ 2 ∧ 2 ≤ MAX_HEADER_LEVEL) ∧
    (∀ p, Except.ok p ∈
        ([Except.ok (⟨[], 0, ['F', 'o', 'o']⟩ : Page)] : List (Except Str Page)) →
      HeadsOK ((fun _ : Str =>
        (⟨[Node.Heading 0 3 [Node.Text 0 3] 2], []⟩ : ParserOutput)) p.text).nodes) ∧
    parseRun (fun _ : Int => some 0) [0]
        (fun _ : Str => (⟨[Node.Heading 0 3 [Node.Text 0 3] 2], []⟩ : ParserOutput))
        ([Except.ok (⟨[], 0, ['F', 'o', 'o']⟩ : Page)] : List (Except Str Page)) 1 [] =
      .ok [(['F', 'o', 'o'], [1, 0, 0, 0, 0])] ∧
    tableCount [(['F', 'o', 'o'], [1, 0, 0, 0, 0])] ['F', 'o', 'o'] 2 =
      corpusCount
        (fun _ : Str => (⟨[Node.Heading 0 3 [Node.Text 0 3] 2], []⟩ : ParserOutput))
        ['F', 'o', 'o'] 2
        (selectedPages (fun _ : Int => some 0) [0]
          ([Except.ok (⟨[], 0, ['F', 'o', 'o']⟩ : Page)] : List (Except Str Page)) 1) := by
  have hheads : ∀ p, Except.ok p ∈
      ([Except.ok (⟨[], 0, ['F', 'o', 'o']⟩ : Page)] : List (Except Str Page)) →
      HeadsOK ((fun _ : Str =>
        (⟨[Node.Heading 0 3 [Node.Text 0 3] 2], []⟩ : ParserOutput)) p.text).nodes := by
    intro p hp
    simp at hp
    subst hp
    simp [HeadsOK, HeadsOKP, headingsIn]
  have hrun : parseRun (fun _ : Int => some 0) [0]
      (fun _ : Str => (⟨[Node.Heading 0 3 [Node.Text 0 3] 2], []⟩ : ParserOutput))
      ([Except.ok (⟨[], 0, ['F', 'o', 'o']⟩ : Page)] : List (Except Str Page)) 1 [] =
      .ok [(['F', 'o', 'o'], [1, 0, 0, 0, 0])] := by
    simp [parseRun, process_nodes, process_header, headerKey,
      get_nodes_text, trimSpaceTab, isSpaceTab, entryIncr, HeaderCounts.incrAt,
      HeaderCounts.new, levelIndex, USIZE_MOD, MIN_HEADER_LEVEL, MAX_HEADER_LEVEL,
      HEADER_LEVEL_ARRAY_SIZE, Node.start, Node.stop]
  exact ⟨⟨by decide, by decide⟩, hheads, hrun,
    C1_count_conservation (fun _ : Int => some 0) [0]
      (fun _ : Str => (⟨[Node.Heading 0 3 [Node.Text 0 3] 2], []⟩ : ParserOutput))
      ([Except.ok (⟨[], 0, ['F', 'o', 'o']⟩ : Page)] : List (Except Str Page)) 1
      ['F', 'o', 'o'] 2
      [(['F', 'o', 'o'], [1, 0, 0, 0, 0])] (by decide) (by decide) hheads hrun⟩

end HeaderStatsModel
